import Mathlib

/-!
# Verification of the NetworkER evolutionary-game simulation

A shallow embedding of `NetworkER.py`: an evolutionary cooperate/defect game
on a static Erdős–Rényi network where agents dissatisfied with the recent
cooperation level of their environment probe random "stranger" partners at a
cost.  Python floats are modelled as exact rationals (`ℚ`), the single global
Mersenne-Twister stream as a function `ℕ → ℚ` of draw values in `[0,1)`
consumed at an explicit cursor, and fallible Python code (uncaught
`ZeroDivisionError`) as `Except`.
-/

namespace NetworkER

/-- A strategy: Python encodes cooperation as `0` and defection as `1`. -/
inductive Strategy
  | cooperate
  | defect
deriving DecidableEq, Repr, Inhabited

/-- Errors the Python script can abort with (uncaught exceptions). -/
inductive SimError
  | zeroDivision
deriving DecidableEq, Repr, Inhabited

/-- Interpret one stream draw `q ∈ [0,1)` as Python's `random.randrange(n)`:
a uniform integer in `[0,n)`, here `⌊q·n⌋` (the `% n` keeps the value in
range for stray `q` outside `[0,1)`). -/
def natDraw (q : ℚ) (n : ℕ) : ℕ :=
  (⌊q * n⌋).toNat % n

/-- `random.randrange(2)` mapped onto a strategy (`0 ↦ cooperate`). -/
def stratOfNat (n : ℕ) : Strategy :=
  if n % 2 = 0 then .cooperate else .defect

/-- Per-node mutable state, the `Agent` class of the source. -/
structure Agent where
  strategy : Strategy
  PreStrat : Strategy
  payoff : ℚ
  memory : List Strategy
  mi : ℕ
  strangers : List ℕ
deriving DecidableEq, Repr

instance : Inhabited Agent :=
  ⟨⟨.cooperate, .cooperate, 0, [], 0, []⟩⟩

/-- The static graph: adjacency lists, as enumerated by `G.neighbors`. -/
structure SimGraph where
  adj : ℕ → List ℕ

/-- `G.degree(i)`: the number of fixed neighbors of node `i`. -/
def SimGraph.degree (G : SimGraph) (i : ℕ) : ℕ :=
  (G.adj i).length

/-- The population plus the global strategy counters `Num[0]`/`Num[1]`. -/
structure SimState where
  players : List Agent
  numC : ℤ
  numD : ℤ
deriving Repr, DecidableEq

instance {ε α : Type} [DecidableEq ε] [DecidableEq α] : DecidableEq (Except ε α) :=
  fun a b =>
    match a, b with
    | .ok x, .ok y => decidable_of_iff (x = y) (by simp)
    | .error x, .error y => decidable_of_iff (x = y) (by simp)
    | .ok _, .error _ => isFalse (by simp)
    | .error _, .ok _ => isFalse (by simp)

/-- `deque(maxlen=M)` append: keep the most recent `M` entries. -/
def pushMem (M : ℕ) (mem : List Strategy) (s : Strategy) : List Strategy :=
  let l := mem ++ [s]
  l.drop (l.length - M)

/-- `update_mi`: the number of cooperation decisions recorded in a memory. -/
def countCoop (mem : List Strategy) : ℕ :=
  mem.countP (fun d => decide (d = Strategy.cooperate))

/-- The pairwise payoff to the acting agent: `1` for cooperating against a
cooperator, `b` for defecting against a cooperator, `0` otherwise. -/
def payoffPair (b : ℚ) (sx sy : Strategy) : ℚ :=
  if sx = .cooperate ∧ sy = .cooperate then 1
  else if sx = .defect ∧ sy = .cooperate then b
  else 0

/-- The fixed-neighbor part of `game`: iterate over `G.neighbors(x)`
accumulating the pairwise payoffs against current strategies. -/
def fixedNeighborPayoff (b : ℚ) (G : SimGraph) (players : List Agent)
    (x : ℕ) (strat : Strategy) : ℚ :=
  (G.adj x).foldl
    (fun acc y => acc + payoffPair b strat (players.getD y default).strategy) 0

/-- The stranger-trial loop of `game`: `trials` rounds, each drawing one
candidate `random.randrange(N)` from the stream at the cursor; a candidate
with full memory and cooperation ratio below `r` contributes a pairwise
payoff, is recorded, and bumps `ki`.  Returns the accumulated extra payoff,
`ki`, the recorded candidates in append order, and the new cursor. -/
def strangerTrials (N M : ℕ) (b r : ℚ) (players : List Agent)
    (strat : Strategy) : ℕ → (ℕ → ℚ) → ℕ → ℚ × ℕ × List ℕ × ℕ
  | 0, _, k => (0, 0, [], k)
  | t + 1, s, k =>
      let stranger := natDraw (s k) N
      let cand := players.getD stranger default
      let rest := strangerTrials N M b r players strat t s (k + 1)
      if cand.memory.length = M then
        if (cand.mi : ℚ) / M < r then
          (payoffPair b strat cand.strategy + rest.1, rest.2.1 + 1,
           stranger :: rest.2.2.1, rest.2.2.2)
        else rest
      else rest

/-- The `game` function: player `x`'s payoff this round.  Fixed-neighbor
payoffs always; when `x`'s memory is full and its cooperation ratio is below
`r`, additionally `Ki` stranger trials followed by the cost deduction
`b * alpha * ki`.  Returns the payoff, the player list with `x`'s recorded
strangers appended, and the new stream cursor. -/
def game (N M Ki : ℕ) (b r alpha : ℚ) (G : SimGraph) (players : List Agent)
    (x : ℕ) (s : ℕ → ℚ) (k : ℕ) : ℚ × List Agent × ℕ :=
  let player := players.getD x default
  let strat := player.strategy
  let base := fixedNeighborPayoff b G players x strat
  if player.memory.length = M then
    if (player.mi : ℚ) / M < r then
      let res := strangerTrials N M b r players strat Ki s k
      (base + res.1 - b * alpha * res.2.1,
       players.set x { player with strangers := player.strangers ++ res.2.2.1 },
       res.2.2.2)
    else (base, players, k)
  else (base, players, k)

/-! ## Specification-level description of `game` (the words of the claim) -/

/-- The candidates drawn in the stranger phase, one per trial. -/
def strangerCandidates (N Ki : ℕ) (s : ℕ → ℚ) (k : ℕ) : List ℕ :=
  (List.range Ki).map (fun t => natDraw (s (k + t)) N)

/-- A candidate qualifies when its own memory is full and its own
cooperation ratio is below `r`. -/
def qualifies (M : ℕ) (r : ℚ) (players : List Agent) (c : ℕ) : Bool :=
  let a := players.getD c default
  decide (a.memory.length = M ∧ (a.mi : ℚ) / M < r)

/-- `game` as the specification describes it: the sum of per-neighbor
payoffs, plus — exactly when the agent's memory holds `M` entries and its
cooperation ratio is below `r` — the sum of pairwise payoffs against the
qualifying candidates of `Ki` uniform draws, minus `b * alpha` times the
number of qualifying candidates, which are appended to the agent's stranger
list. -/
def gameSpec (N M Ki : ℕ) (b r alpha : ℚ) (G : SimGraph) (players : List Agent)
    (x : ℕ) (s : ℕ → ℚ) (k : ℕ) : ℚ × List Agent × ℕ :=
  let player := players.getD x default
  let strat := player.strategy
  let base :=
    ((G.adj x).map (fun y => payoffPair b strat (players.getD y default).strategy)).sum
  if player.memory.length = M ∧ (player.mi : ℚ) / M < r then
    let qs := (strangerCandidates N Ki s k).filter (qualifies M r players)
    (base + (qs.map (fun c => payoffPair b strat (players.getD c default).strategy)).sum
       - b * alpha * qs.length,
     players.set x { player with strangers := player.strangers ++ qs },
     k + Ki)
  else (base, players, k)

/-! ## Strategy update -/

/-- Decrement the global counter of a strategy (`Num[s] -= 1`). -/
def numSub (st : SimState) : Strategy → SimState
  | .cooperate => { st with numC := st.numC - 1 }
  | .defect => { st with numD := st.numD - 1 }

/-- Increment the global counter of a strategy (`Num[s] += 1`). -/
def numAdd (st : SimState) : Strategy → SimState
  | .cooperate => { st with numC := st.numC + 1 }
  | .defect => { st with numD := st.numD + 1 }

/-- `change_strat(playerX, playerY)`: compare payoffs and, with the
payoff-proportional probability, adopt `playerY`'s previous strategy,
updating the global counters.  `u` is the value of the `random.random()`
call the source always makes. -/
def change_strat (b : ℚ) (G : SimGraph) (st : SimState) (x y : ℕ)
    (u : ℚ) : SimState :=
  let payoffX := (st.players.getD x default).payoff
  let payoffY := (st.players.getD y default).payoff
  let Kmax := max (G.degree x) (G.degree y)
  let probability : ℚ :=
    if Kmax = 0 then 0
    else if payoffX ≤ payoffY then (payoffY - payoffX) / (b * Kmax) else 0
  if u < probability then
    let old := (st.players.getD x default).strategy
    let st1 := numSub st old
    let pX := st1.players.getD x default
    let newStrat := (st1.players.getD y default).PreStrat
    let st2 := { st1 with players := st1.players.set x { pX with strategy := newStrat } }
    numAdd st2 newStrat
  else st

/-- The imitation probability exactly as the claim words it. -/
def imitationProbability (b : ℚ) (G : SimGraph) (st : SimState)
    (x y : ℕ) : ℚ :=
  let Kmax := max (G.degree x) (G.degree y)
  if Kmax = 0 then 0
  else if (st.players.getD y default).payoff ≥ (st.players.getD x default).payoff then
    ((st.players.getD y default).payoff - (st.players.getD x default).payoff) / (b * Kmax)
  else 0

/-- `applyStrategyChange`: set agent `x`'s strategy, decrementing the counter
of the old strategy and incrementing the counter of the new one. -/
def applyStrategyChange (st : SimState) (x : ℕ) (newStrat : Strategy) : SimState :=
  let old := (st.players.getD x default).strategy
  let st1 := numSub st old
  let pX := st1.players.getD x default
  let st2 := { st1 with players := st1.players.set x { pX with strategy := newStrat } }
  numAdd st2 newStrat

/-! ## Round phases -/

/-- One agent's round-beginning bookkeeping: reset the payoff, snapshot the
strategy into `PreStrat`, append the current strategy to the bounded memory
and recompute `mi` from the new memory. -/
def beginRoundAgent (M : ℕ) (a : Agent) : Agent :=
  let mem := pushMem M a.memory a.strategy
  { a with payoff := 0, PreStrat := a.strategy, memory := mem, mi := countCoop mem }

/-- Phase 1 of a round, applied to every agent in index order. -/
def beginPhase (M : ℕ) (players : List Agent) : List Agent :=
  players.map (beginRoundAgent M)

/-- Phase 2: `Players[i].payoff = game(i)` for `i = 0..N-1`, threading the
stream cursor (`game` itself also appends to `Players[i].strangers`). -/
def payoffPhase (N M Ki : ℕ) (b r alpha : ℚ) (G : SimGraph) (s : ℕ → ℚ) :
    List ℕ → List Agent × ℕ → List Agent × ℕ
  | [], acc => acc
  | i :: rest, (players, k) =>
      let res := game N M Ki b r alpha G players i s k
      let players' := res.2.1.set i { res.2.1.getD i default with payoff := res.1 }
      payoffPhase N M Ki b r alpha G s rest (players', res.2.2)

/-- Phase 3 for one agent: build the candidate pool (fixed neighbors, plus
the stranger list when the memory is full, the cooperation ratio is below
`r` and the list is non-empty); when the pool is non-empty, pick one member
uniformly and run `change_strat`.  Consumes two draws (the `random.choice`
and the `random.random()` inside `change_strat`) when the pool is
non-empty. -/
def updateOne (M : ℕ) (b r : ℚ) (G : SimGraph) (s : ℕ → ℚ)
    (st : SimState) (x : ℕ) (k : ℕ) : SimState × ℕ :=
  let a := st.players.getD x default
  let pool := G.adj x ++
    (if a.memory.length = M ∧ (a.mi : ℚ) / M < r ∧ a.strangers ≠ [] then
      a.strangers else [])
  if pool = [] then (st, k)
  else
    let y := pool.getD (natDraw (s k) pool.length) 0
    (change_strat b G st x y (s (k + 1)), k + 2)

/-- Phase 3 of a round over a list of agent indices. -/
def updatePhase (M : ℕ) (b r : ℚ) (G : SimGraph) (s : ℕ → ℚ) :
    List ℕ → SimState × ℕ → SimState × ℕ
  | [], acc => acc
  | i :: rest, (st, k) =>
      let res := updateOne M b r G s st i k
      updatePhase M b r G s rest res

/-- Phase 5: clear every agent's stranger list. -/
def cleanupPhase (players : List Agent) : List Agent :=
  players.map (fun a => { a with strangers := [] })

/-! ## Initialization -/

/-- One freshly initialized agent: a uniformly random strategy (one stream
draw), `PreStrat` equal to it, zero payoff, empty memory and stranger list.
`initial()` does not reset `mi`, but on the `main()` path it operates on
agents fresh from `Agent.__init__` where `mi = 0`. -/
def initAgent (q : ℚ) : Agent :=
  let s := stratOfNat (natDraw q 2)
  { strategy := s, PreStrat := s, payoff := 0, memory := [], mi := 0, strangers := [] }

/-- `initial()`: reset every agent and recompute `Num` from scratch by a
single accumulating scan of the strategies.  Consumes `N` draws. -/
def initialState (N : ℕ) (s : ℕ → ℚ) (k : ℕ) : SimState × ℕ :=
  let agents := (List.range N).map (fun i => initAgent (s (k + i)))
  let nums := agents.foldl
    (fun (n : ℤ × ℤ) a =>
      match a.strategy with
      | .cooperate => (n.1 + 1, n.2)
      | .defect => (n.1, n.2 + 1))
    (0, 0)
  ({ players := agents, numC := nums.1, numD := nums.2 }, k + N)

/-! ## The degree-variation statistic `calcCV` -/

/-- The `extra_in` array: for every agent `j` and every recorded stranger
`c` of `j`, bump slot `c` (counts incoming stranger selections). -/
def extraInArr (N : ℕ) (players : List Agent) : List ℕ :=
  players.foldl
    (fun acc a => a.strangers.foldl (fun ac c => ac.set c (ac.getD c 0 + 1)) acc)
    (List.replicate N 0)

/-- The effective-degree list built by `calcCV`: fixed degree plus outgoing
plus incoming stranger selections for every node. -/
def degreesArr (N : ℕ) (G : SimGraph) (players : List Agent) : List ℚ :=
  (List.range N).map
    (fun i => ((G.degree i : ℚ) + ((players.getD i default).strangers.length : ℚ) +
      ((extraInArr N players).getD i 0 : ℚ)))

/-- The mean effective degree `mu_k = total / SIZE`. -/
def cvMu (N : ℕ) (G : SimGraph) (players : List Agent) : ℚ :=
  (degreesArr N G players).sum / N

/-- The sum of squared deviations from the mean. -/
def cvSqDiffSum (N : ℕ) (G : SimGraph) (players : List Agent) : ℚ :=
  ((degreesArr N G players).map (fun d => (d - cvMu N G players) ^ 2)).sum

/-- `calcCV()`: `sigma_k / mu_k` with `sigma_k = sqrt(sq_diff_sum / SIZE)`.
Python raises `ZeroDivisionError` when `SIZE = 0` (at `total / SIZE`) or
when `mu_k = 0` (at `sigma_k / mu_k`); both abort the run. -/
noncomputable def calcCVE (N : ℕ) (G : SimGraph) (players : List Agent) :
    Except SimError ℝ :=
  if N = 0 then .error .zeroDivision
  else if cvMu N G players = 0 then .error .zeroDivision
  else .ok (Real.sqrt ((cvSqDiffSum N G players : ℚ) / (N : ℚ)) / ((cvMu N G players : ℚ) : ℝ))

/-! ## The main loop -/

/-- One round's state evolution, phases 1–3: round beginning for all agents,
payoff computation for all agents, then the strategy-update pass. -/
def roundUpdate (N M Ki : ℕ) (b r alpha : ℚ) (G : SimGraph) (s : ℕ → ℚ)
    (st : SimState) (k : ℕ) : SimState × ℕ :=
  let pl1 := beginPhase M st.players
  let res2 := payoffPhase N M Ki b r alpha G s (List.range N) (pl1, k)
  updatePhase M b r G s (List.range N) ({ st with players := res2.1 }, res2.2)

/-- `n` rounds of the loop body without the reporting output: after the
update phase, `calcCV` runs and aborts the whole run on a zero division
(`SIZE = 0` or zero mean effective degree); otherwise the stranger lists
are cleared and the next round starts. -/
def runRounds (N M Ki : ℕ) (b r alpha : ℚ) (G : SimGraph) (s : ℕ → ℚ) :
    ℕ → SimState → ℕ → Except SimError (SimState × ℕ)
  | 0, st, k => .ok (st, k)
  | n + 1, st, k =>
      let res := roundUpdate N M Ki b r alpha G s st k
      if N = 0 ∨ cvMu N G res.1.players = 0 then .error .zeroDivision
      else
        runRounds N M Ki b r alpha G s n
          { res.1 with players := cleanupPhase res.1.players } res.2

/-- One per-round output record: the data of the line
`f"\x7bstep\x7d\tCV=\x7bCV:.4f\x7d\tP_c=\x7bP_c:.4f\x7d\n"` — the step
index, the CV value and the cooperation fraction `Num[0] / SIZE`. -/
structure RoundRecord where
  step : ℕ
  cv : ℝ
  pc : ℚ

/-- The reporting main loop: per round run phases 1–3, compute the CV
(aborting on its zero division), emit the round's record, clear the
stranger lists, and recurse. -/
noncomputable def runLoop (N M Ki : ℕ) (b r alpha : ℚ) (G : SimGraph)
    (s : ℕ → ℚ) : ℕ → ℕ → SimState → ℕ → Except SimError (List RoundRecord)
  | 0, _, _, _ => .ok []
  | n + 1, step, st, k =>
      let res := roundUpdate N M Ki b r alpha G s st k
      match calcCVE N G res.1.players with
      | .error e => .error e
      | .ok cv =>
          match runLoop N M Ki b r alpha G s n (step + 1)
              { res.1 with players := cleanupPhase res.1.players } res.2 with
          | .error e => .error e
          | .ok rest => .ok (⟨step, cv, (res.1.numC : ℚ) / N⟩ :: rest)

/-- `main()` after seeding: initialize all players, then run `steps_total`
reporting rounds, producing the list of per-round output records. -/
noncomputable def runSim (N M Ki steps : ℕ) (b r alpha : ℚ) (G : SimGraph)
    (s : ℕ → ℚ) : Except SimError (List RoundRecord) :=
  let init := initialState N s 0
  runLoop N M Ki b r alpha G s steps 0 init.1 init.2

/-! ## Network construction -/

/-- `build_network` composed with the module-level probability computation:
`p = 2R / (SIZE - 1)` raises `ZeroDivisionError` exactly when `SIZE = 1`;
otherwise the graph is sampled.  The Erdős–Rényi sampling itself is the
external `nx.erdos_renyi_graph`, modelled as one independent draw
`d (min i j) (max i j)` per unordered pair with the edge present iff the
draw is below `p` — so for `p ≥ 1` (draws lie in `[0,1)`) every edge is
present and the result is the complete graph, matching networkx, which
returns `complete_graph(n)` whenever `p ≥ 1`.  No parameter validation of
any kind is performed. -/
def buildNetworkE (n R : ℕ) (d : ℕ → ℕ → ℚ) : Except SimError SimGraph :=
  if n = 1 then .error .zeroDivision
  else
    let p : ℚ := (2 * R : ℚ) / ((n : ℚ) - 1)
    .ok ⟨fun i =>
      if i < n then
        (List.range n).filter (fun j => decide (j ≠ i ∧ d (min i j) (max i j) < p))
      else []⟩

/-! ## General helper lemmas -/

theorem foldl_add_eq_sum {α : Type} (f : α → ℚ) (l : List α) (init : ℚ) :
    l.foldl (fun acc y => acc + f y) init = init + (l.map f).sum := by
  induction l generalizing init with
  | nil => simp
  | cons a t ih => simp [ih, add_assoc]

theorem getD_set_self {α : Type} {l : List α} {i : ℕ} (a d : α) (h : i < l.length) :
    (l.set i a).getD i d = a := by
  simp [List.getD_eq_getElem?_getD, List.getElem?_set_self', List.getElem?_eq_getElem h]

theorem getD_set_ne {α : Type} {l : List α} {i j : ℕ} (a d : α) (h : i ≠ j) :
    (l.set i a).getD j d = l.getD j d := by
  simp [List.getD_eq_getElem?_getD, List.getElem?_set_ne h]

theorem getD_map_lt {α β : Type} (f : α → β) {l : List α} {i : ℕ} (d : α) (e : β)
    (h : i < l.length) : (l.map f).getD i e = f (l.getD i d) := by
  simp [List.getD_eq_getElem?_getD, List.getElem?_map, List.getElem?_eq_getElem h]

/-! ## C1: the payoff function matches its specification -/

theorem strangerCandidates_succ (N t : ℕ) (s : ℕ → ℚ) (k : ℕ) :
    strangerCandidates N (t + 1) s k =
      natDraw (s k) N :: strangerCandidates N t s (k + 1) := by
  unfold strangerCandidates
  rw [List.range_succ_eq_map, List.map_cons, List.map_map]
  refine congrArg₂ _ (by simp) ?_
  apply List.map_congr_left
  intro i _
  have hik : k + Nat.succ i = k + 1 + i := by omega
  simp [Function.comp, hik]

theorem strangerTrials_eq (N M : ℕ) (b r : ℚ) (players : List Agent)
    (strat : Strategy) (t : ℕ) (s : ℕ → ℚ) (k : ℕ) :
    strangerTrials N M b r players strat t s k =
      ((((strangerCandidates N t s k).filter (qualifies M r players)).map
          (fun c => payoffPair b strat (players.getD c default).strategy)).sum,
       ((strangerCandidates N t s k).filter (qualifies M r players)).length,
       (strangerCandidates N t s k).filter (qualifies M r players),
       k + t) := by
  induction t generalizing k with
  | zero => simp [strangerTrials, strangerCandidates]
  | succ t ih =>
      rw [strangerCandidates_succ, strangerTrials, ih (k + 1)]
      by_cases h1 : (players.getD (natDraw (s k) N) default).memory.length = M
      · by_cases h2 : ((players.getD (natDraw (s k) N) default).mi : ℚ) / M < r
        · have hq : qualifies M r players (natDraw (s k) N) = true := by
            simp only [qualifies, decide_eq_true_eq]
            exact ⟨h1, h2⟩
          simp only [h1, h2, if_true, List.filter_cons, hq, List.map_cons,
            List.sum_cons, List.length_cons, Prod.mk.injEq]
          exact ⟨trivial, trivial, trivial, by omega⟩
        · have hq : qualifies M r players (natDraw (s k) N) = false := by
            simp only [qualifies, decide_eq_false_iff_not]
            exact fun hc => h2 hc.2
          simp only [h1, h2, if_true, if_false, List.filter_cons, hq,
            Bool.false_eq_true, Prod.mk.injEq]
          exact ⟨trivial, trivial, trivial, by omega⟩
      · have hq : qualifies M r players (natDraw (s k) N) = false := by
          simp only [qualifies, decide_eq_false_iff_not]
          exact fun hc => h1 hc.1
        simp only [h1, if_false, List.filter_cons, hq, Bool.false_eq_true,
          Prod.mk.injEq]
        exact ⟨trivial, trivial, trivial, by omega⟩

/-- C1: `computePayoff` (the function `game`) returns exactly the sum of the
fixed-neighbor pairwise payoffs (1 for cooperate/cooperate, `b` for
defect/cooperate, 0 otherwise), plus — only when the agent's memory holds
exactly `M` entries and `mi / M < r` — a stranger phase of exactly `Ki`
uniform draws from all `N` nodes where each qualifying candidate (full
memory, own ratio below `r`) contributes the same pairwise payoff, is
appended to the agent's stranger list and counts towards `ki`, minus
`b * alpha * ki` after all trials. -/
theorem game_matches_spec (N M Ki : ℕ) (b r alpha : ℚ) (G : SimGraph)
    (players : List Agent) (x : ℕ) (s : ℕ → ℚ) (k : ℕ) :
    game N M Ki b r alpha G players x s k =
      gameSpec N M Ki b r alpha G players x s k := by
  unfold game gameSpec fixedNeighborPayoff
  by_cases h1 : (players.getD x default).memory.length = M
  · by_cases h2 : ((players.getD x default).mi : ℚ) / M < r
    · simp only [h1, h2, if_true, and_self, true_and, foldl_add_eq_sum, zero_add,
        strangerTrials_eq]
    · simp only [h1, h2, foldl_add_eq_sum, zero_add, eq_self_iff_true, true_and,
        if_true, if_false]
  · simp only [h1, foldl_add_eq_sum, zero_add, if_false, false_and,
      iff_false_intro h1, if_neg h1]

/-! ## C2 and C10: the strategy-update rule -/

theorem numSub_players (st : SimState) (t : Strategy) : (numSub st t).players = st.players := by
  cases t <;> rfl

theorem numAdd_players (st : SimState) (t : Strategy) : (numAdd st t).players = st.players := by
  cases t <;> rfl

/-- The two possible outcomes of `change_strat` on the player list: either
nothing happens, or exactly agent `x`'s strategy is overwritten with agent
`y`'s previous strategy. -/
theorem change_strat_players_cases (b : ℚ) (G : SimGraph) (st : SimState)
    (x y : ℕ) (u : ℚ) :
    (change_strat b G st x y u).players = st.players ∨
      (change_strat b G st x y u).players =
        st.players.set x
          { st.players.getD x default with
              strategy := (st.players.getD y default).PreStrat } := by
  simp only [change_strat]
  split_ifs <;>
    first
      | (left; rfl)
      | (right; simp only [numAdd_players, numSub_players])

/-- C2: `attemptImitation` (the function `change_strat`) uses probability 0
when `Kmax = 0`, probability `(payoff(y) - payoff(x)) / (b * Kmax)` when
`payoff(y) ≥ payoff(x)` — hence exactly 0 at equal payoffs — and 0 when
`payoff(y) < payoff(x)`, with no clamping; when the uniform draw falls
below this probability, `x`'s strategy becomes `y`'s `PreStrat` (the
round-start strategy) via the counter-adjusting strategy change. -/
theorem change_strat_matches_spec (b : ℚ) (G : SimGraph) (st : SimState)
    (x y : ℕ) (u : ℚ) :
    (change_strat b G st x y u =
      if u < imitationProbability b G st x y then
        applyStrategyChange st x ((st.players.getD y default).PreStrat)
      else st)
    ∧ (max (G.degree x) (G.degree y) = 0 → imitationProbability b G st x y = 0)
    ∧ ((st.players.getD y default).payoff < (st.players.getD x default).payoff →
        imitationProbability b G st x y = 0)
    ∧ ((st.players.getD x default).payoff ≤ (st.players.getD y default).payoff →
        max (G.degree x) (G.degree y) ≠ 0 →
        imitationProbability b G st x y =
          ((st.players.getD y default).payoff - (st.players.getD x default).payoff) /
            (b * (max (G.degree x) (G.degree y) : ℚ)))
    ∧ ((st.players.getD x default).payoff = (st.players.getD y default).payoff →
        imitationProbability b G st x y = 0) := by
  refine ⟨?_, ?_, ?_, ?_, ?_⟩
  · simp only [change_strat, applyStrategyChange, imitationProbability, ge_iff_le]
    split_ifs <;> simp only [numAdd_players, numSub_players]
  · intro h
    simp only [imitationProbability]
    rw [if_pos h]
  · intro h
    simp only [imitationProbability]
    rcases eq_or_ne (max (G.degree x) (G.degree y)) 0 with hK | hK
    · rw [if_pos hK]
    · rw [if_neg hK, if_neg (not_le_of_lt h)]
  · intro h1 h2
    simp only [imitationProbability]
    rw [if_neg h2, if_pos h1, Nat.cast_max]
  · intro h
    simp only [imitationProbability]
    rcases eq_or_ne (max (G.degree x) (G.degree y)) 0 with hK | hK
    · rw [if_pos hK]
    · rw [if_neg hK, if_pos (le_of_eq h), h, sub_self, zero_div]

theorem change_strat_matches_spec_witness :
    imitationProbability (6/5) ⟨fun i => if i = 0 then [1] else if i = 1 then [0] else []⟩
      ⟨[{ strategy := .cooperate, PreStrat := .cooperate, payoff := 1, memory := [], mi := 0, strangers := [] },
        { strategy := .defect, PreStrat := .defect, payoff := 2, memory := [], mi := 0, strangers := [] }], 1, 1⟩
      0 1 = (2 - 1) / (6/5 * 1) :=
  (change_strat_matches_spec (6/5) _ _ 0 1 0).2.2.2.1 (by norm_num) (by decide)

/-- C10: `change_strat(x, y)` mutates at most `x`'s strategy and the two
global counters: the player list keeps its length, every agent other than
`x` is untouched, and `x`'s payoff, `PreStrat`, memory, `mi` and stranger
list are all preserved. -/
theorem change_strat_frame (b : ℚ) (G : SimGraph) (st : SimState)
    (x y : ℕ) (u : ℚ) :
    ((change_strat b G st x y u).players.length = st.players.length)
    ∧ (∀ j, j ≠ x →
        (change_strat b G st x y u).players.getD j default =
          st.players.getD j default)
    ∧ ((change_strat b G st x y u).players.getD x default).payoff =
        (st.players.getD x default).payoff
    ∧ ((change_strat b G st x y u).players.getD x default).PreStrat =
        (st.players.getD x default).PreStrat
    ∧ ((change_strat b G st x y u).players.getD x default).memory =
        (st.players.getD x default).memory
    ∧ ((change_strat b G st x y u).players.getD x default).mi =
        (st.players.getD x default).mi
    ∧ ((change_strat b G st x y u).players.getD x default).strangers =
        (st.players.getD x default).strangers := by
  rcases change_strat_players_cases b G st x y u with h | h <;> rw [h]
  · exact ⟨rfl, fun j _ => rfl, rfl, rfl, rfl, rfl, rfl⟩
  · by_cases hx : x < st.players.length
    · refine ⟨by simp, fun j hj => getD_set_ne _ _ (Ne.symm hj), ?_, ?_, ?_, ?_, ?_⟩ <;>
        rw [getD_set_self _ _ hx]
    · rw [List.set_eq_of_length_le (Nat.le_of_not_lt hx)]
      exact ⟨rfl, fun j _ => rfl, rfl, rfl, rfl, rfl, rfl⟩

theorem change_strat_frame_witness :
    (change_strat (6/5) ⟨fun _ => []⟩ ⟨[default, default], 2, 0⟩ 0 1 0).players.getD 1 default =
      ([default, default] : List Agent).getD 1 default :=
  (change_strat_frame (6/5) ⟨fun _ => []⟩ ⟨[default, default], 2, 0⟩ 0 1 0).2.1 1 (by decide)

/-! ## C3: the global strategy counters -/

/-- The number of agents currently playing `cooperate`. -/
def coopCount (players : List Agent) : ℕ :=
  players.countP (fun a => decide (a.strategy = Strategy.cooperate))

/-- The number of agents currently playing `defect`. -/
def defectCount (players : List Agent) : ℕ :=
  players.countP (fun a => decide (a.strategy = Strategy.defect))

/-- The counter invariant: the population has the right size and each global
counter equals the count of agents currently holding that strategy. -/
def countersOk (N : ℕ) (st : SimState) : Prop :=
  st.players.length = N ∧ st.numC = (coopCount st.players : ℤ) ∧
    st.numD = (defectCount st.players : ℤ)

theorem coopCount_add_defectCount (l : List Agent) :
    coopCount l + defectCount l = l.length := by
  induction l with
  | nil => rfl
  | cons a t ih =>
      cases h : a.strategy <;>
        simp [coopCount, defectCount, List.countP_cons, h] at ih ⊢ <;> omega

theorem countP_set (p : Agent → Bool) (l : List Agent) (x : ℕ) (a : Agent)
    (hx : x < l.length) :
    (((l.set x a).countP p : ℤ)) =
      (l.countP p : ℤ) - (if p (l.getD x default) then 1 else 0)
        + (if p a then 1 else 0) := by
  induction l generalizing x with
  | nil => simp at hx
  | cons b t ih =>
      cases x with
      | zero =>
          simp only [List.set, List.countP_cons, List.getD_cons_zero]
          split_ifs <;> push_cast <;> omega
      | succ n =>
          have hn : n < t.length := by simpa using hx
          simp only [List.set, List.countP_cons, List.getD_cons_succ]
          have := ih n hn
          split_ifs at this ⊢ <;> push_cast at this ⊢ <;> omega

theorem countP_set_same (p : Agent → Bool) (l : List Agent) (x : ℕ) (a : Agent)
    (h : p a = p (l.getD x default)) :
    (l.set x a).countP p = l.countP p := by
  by_cases hx : x < l.length
  · have := countP_set p l x a hx
    rw [h] at this
    omega
  · rw [List.set_eq_of_length_le (Nat.le_of_not_lt hx)]

/-- The strategies of a player list, in order. -/
def stratsOf (players : List Agent) : List Strategy :=
  players.map (fun a => a.strategy)

/-- The memories of a player list, in order. -/
def memsOf (players : List Agent) : List (List Strategy) :=
  players.map (fun a => a.memory)

theorem map_set_same {α β : Type} (f : α → β) (l : List α) (x : ℕ) (a d : α)
    (h : f a = f (l.getD x d)) : (l.set x a).map f = l.map f := by
  induction l generalizing x with
  | nil => rfl
  | cons b t ih =>
      cases x with
      | zero => simp only [List.set, List.map_cons, List.getD_cons_zero] at h ⊢; rw [h]
      | succ n =>
          simp only [List.set, List.map_cons, List.getD_cons_succ] at h ⊢
          rw [ih n h]

theorem coopCount_congr_strats {l1 l2 : List Agent} (h : stratsOf l1 = stratsOf l2) :
    coopCount l1 = coopCount l2 := by
  have h1 : coopCount l1 = (stratsOf l1).countP (fun t => decide (t = Strategy.cooperate)) := by
    rw [stratsOf, List.countP_map]
    rfl
  have h2 : coopCount l2 = (stratsOf l2).countP (fun t => decide (t = Strategy.cooperate)) := by
    rw [stratsOf, List.countP_map]
    rfl
  rw [h1, h2, h]

theorem defectCount_congr_strats {l1 l2 : List Agent} (h : stratsOf l1 = stratsOf l2) :
    defectCount l1 = defectCount l2 := by
  have h1 : defectCount l1 = (stratsOf l1).countP (fun t => decide (t = Strategy.defect)) := by
    rw [stratsOf, List.countP_map]
    rfl
  have h2 : defectCount l2 = (stratsOf l2).countP (fun t => decide (t = Strategy.defect)) := by
    rw [stratsOf, List.countP_map]
    rfl
  rw [h1, h2, h]

theorem countersOk_congr_strats {N : ℕ} {st : SimState} (pl : List Agent)
    (hlen : pl.length = st.players.length) (h : stratsOf pl = stratsOf st.players)
    (hok : countersOk N st) :
    countersOk N { st with players := pl } := by
  obtain ⟨h1, h2, h3⟩ := hok
  exact ⟨by rw [hlen, h1], by rw [h2, coopCount_congr_strats h],
    by rw [h3, defectCount_congr_strats h]⟩

theorem stratsOf_set_same (l : List Agent) (x : ℕ) (a : Agent)
    (h : a.strategy = (l.getD x default).strategy) :
    stratsOf (l.set x a) = stratsOf l :=
  map_set_same _ l x a default h

theorem memsOf_set_same (l : List Agent) (x : ℕ) (a : Agent)
    (h : a.memory = (l.getD x default).memory) :
    memsOf (l.set x a) = memsOf l :=
  map_set_same _ l x a default h

/-- The whole-state version of the two possible outcomes of `change_strat`. -/
theorem change_strat_cases (b : ℚ) (G : SimGraph) (st : SimState) (x y : ℕ)
    (u : ℚ) :
    change_strat b G st x y u = st ∨
      change_strat b G st x y u =
        applyStrategyChange st x ((st.players.getD y default).PreStrat) := by
  simp only [change_strat, applyStrategyChange, numSub_players]
  split_ifs <;> first | (left; rfl) | (right; rfl)

theorem numSub_numC (st : SimState) (t : Strategy) :
    (numSub st t).numC = st.numC - (if t = Strategy.cooperate then 1 else 0) := by
  cases t <;> simp [numSub]

theorem numSub_numD (st : SimState) (t : Strategy) :
    (numSub st t).numD = st.numD - (if t = Strategy.defect then 1 else 0) := by
  cases t <;> simp [numSub]

theorem numAdd_numC (st : SimState) (t : Strategy) :
    (numAdd st t).numC = st.numC + (if t = Strategy.cooperate then 1 else 0) := by
  cases t <;> simp [numAdd]

theorem numAdd_numD (st : SimState) (t : Strategy) :
    (numAdd st t).numD = st.numD + (if t = Strategy.defect then 1 else 0) := by
  cases t <;> simp [numAdd]

theorem applyStrategyChange_players (st : SimState) (x : ℕ) (ns : Strategy) :
    (applyStrategyChange st x ns).players =
      st.players.set x { st.players.getD x default with strategy := ns } := by
  simp only [applyStrategyChange, numAdd_players, numSub_players]

theorem applyStrategyChange_countersOk (N : ℕ) (st : SimState) (x : ℕ)
    (ns : Strategy) (hok : countersOk N st) (hx : x < st.players.length) :
    countersOk N (applyStrategyChange st x ns) := by
  obtain ⟨h1, h2, h3⟩ := hok
  have hc := countP_set (fun a => decide (a.strategy = Strategy.cooperate)) st.players x
    { st.players.getD x default with strategy := ns } hx
  have hd := countP_set (fun a => decide (a.strategy = Strategy.defect)) st.players x
    { st.players.getD x default with strategy := ns } hx
  have e1 : (applyStrategyChange st x ns).numC = st.numC
      - (if (st.players.getD x default).strategy = Strategy.cooperate then 1 else 0)
      + (if ns = Strategy.cooperate then 1 else 0) := by
    simp only [applyStrategyChange, numAdd_numC, numSub_numC]
  have e2 : (applyStrategyChange st x ns).numD = st.numD
      - (if (st.players.getD x default).strategy = Strategy.defect then 1 else 0)
      + (if ns = Strategy.defect then 1 else 0) := by
    simp only [applyStrategyChange, numAdd_numD, numSub_numD]
  refine ⟨?_, ?_, ?_⟩
  · rw [applyStrategyChange_players]
    simp [h1]
  · rw [e1, applyStrategyChange_players, h2]
    simp only [coopCount] at *
    by_cases hos : (st.players.getD x default).strategy = Strategy.cooperate <;>
      by_cases hns : ns = Strategy.cooperate <;>
      simp [hos, hns] at hc ⊢ <;> omega
  · rw [e2, applyStrategyChange_players, h3]
    simp only [defectCount] at *
    by_cases hos : (st.players.getD x default).strategy = Strategy.defect <;>
      by_cases hns : ns = Strategy.defect <;>
      simp [hos, hns] at hd ⊢ <;> omega

theorem updateOne_countersOk (N M : ℕ) (b r : ℚ) (G : SimGraph) (s : ℕ → ℚ)
    (st : SimState) (x k : ℕ) (hok : countersOk N st) (hx : x < N) :
    countersOk N (updateOne M b r G s st x k).1 := by
  simp only [updateOne]
  split_ifs <;>
    first
      | exact hok
      | (rcases change_strat_cases b G st x _ (s (k + 1)) with h | h <;> rw [h] <;>
          first
            | exact hok
            | exact applyStrategyChange_countersOk N st x _ hok (hok.1 ▸ hx))

theorem updatePhase_countersOk (N M : ℕ) (b r : ℚ) (G : SimGraph) (s : ℕ → ℚ)
    (idx : List ℕ) (st : SimState) (k : ℕ) (hok : countersOk N st)
    (hidx : ∀ i ∈ idx, i < N) :
    countersOk N (updatePhase M b r G s idx (st, k)).1 := by
  induction idx generalizing st k with
  | nil => exact hok
  | cons i rest ih =>
      simp only [updatePhase]
      exact ih (updateOne M b r G s st i k).1 (updateOne M b r G s st i k).2
        (updateOne_countersOk N M b r G s st i k hok (hidx i (List.mem_cons_self i rest)))
        (fun j hj => hidx j (List.mem_cons_of_mem _ hj))

theorem beginPhase_strats (M : ℕ) (l : List Agent) :
    stratsOf (beginPhase M l) = stratsOf l := by
  simp only [stratsOf, beginPhase, List.map_map]
  rfl

theorem beginPhase_length (M : ℕ) (l : List Agent) :
    (beginPhase M l).length = l.length := by
  simp [beginPhase]

theorem cleanupPhase_strats (l : List Agent) :
    stratsOf (cleanupPhase l) = stratsOf l := by
  simp only [stratsOf, cleanupPhase, List.map_map]
  rfl

theorem cleanupPhase_mems (l : List Agent) :
    memsOf (cleanupPhase l) = memsOf l := by
  simp only [memsOf, cleanupPhase, List.map_map]
  rfl

theorem cleanupPhase_length (l : List Agent) :
    (cleanupPhase l).length = l.length := by
  simp [cleanupPhase]

theorem game_players_cases (N M Ki : ℕ) (b r alpha : ℚ) (G : SimGraph)
    (players : List Agent) (x : ℕ) (s : ℕ → ℚ) (k : ℕ) :
    (game N M Ki b r alpha G players x s k).2.1 = players ∨
      ∃ strs, (game N M Ki b r alpha G players x s k).2.1 =
        players.set x { players.getD x default with strangers := strs } := by
  simp only [game]
  split_ifs
  · right; exact ⟨_, rfl⟩
  · left; rfl
  · left; rfl

theorem game_strats (N M Ki : ℕ) (b r alpha : ℚ) (G : SimGraph)
    (players : List Agent) (x : ℕ) (s : ℕ → ℚ) (k : ℕ) :
    stratsOf (game N M Ki b r alpha G players x s k).2.1 = stratsOf players := by
  rcases game_players_cases N M Ki b r alpha G players x s k with h | ⟨strs, h⟩ <;>
    rw [h]
  exact stratsOf_set_same _ _ _ rfl

theorem game_mems (N M Ki : ℕ) (b r alpha : ℚ) (G : SimGraph)
    (players : List Agent) (x : ℕ) (s : ℕ → ℚ) (k : ℕ) :
    memsOf (game N M Ki b r alpha G players x s k).2.1 = memsOf players := by
  rcases game_players_cases N M Ki b r alpha G players x s k with h | ⟨strs, h⟩ <;>
    rw [h]
  exact memsOf_set_same _ _ _ rfl

theorem game_length (N M Ki : ℕ) (b r alpha : ℚ) (G : SimGraph)
    (players : List Agent) (x : ℕ) (s : ℕ → ℚ) (k : ℕ) :
    (game N M Ki b r alpha G players x s k).2.1.length = players.length := by
  rcases game_players_cases N M Ki b r alpha G players x s k with h | ⟨strs, h⟩ <;>
    rw [h]
  simp

theorem stratsOf_set_payoff (l : List Agent) (x : ℕ) (p : ℚ) :
    stratsOf (l.set x { l.getD x default with payoff := p }) = stratsOf l :=
  stratsOf_set_same l x { l.getD x default with payoff := p } rfl

theorem memsOf_set_payoff (l : List Agent) (x : ℕ) (p : ℚ) :
    memsOf (l.set x { l.getD x default with payoff := p }) = memsOf l :=
  memsOf_set_same l x { l.getD x default with payoff := p } rfl

theorem payoffPhase_preserves (N M Ki : ℕ) (b r alpha : ℚ) (G : SimGraph)
    (s : ℕ → ℚ) (idx : List ℕ) (players : List Agent) (k : ℕ) :
    stratsOf (payoffPhase N M Ki b r alpha G s idx (players, k)).1 = stratsOf players
    ∧ memsOf (payoffPhase N M Ki b r alpha G s idx (players, k)).1 = memsOf players
    ∧ (payoffPhase N M Ki b r alpha G s idx (players, k)).1.length = players.length := by
  induction idx generalizing players k with
  | nil => exact ⟨rfl, rfl, rfl⟩
  | cons i rest ih =>
      simp only [payoffPhase]
      obtain ⟨ih1, ih2, ih3⟩ := ih
        ((game N M Ki b r alpha G players i s k).2.1.set i
          { (game N M Ki b r alpha G players i s k).2.1.getD i default with
              payoff := (game N M Ki b r alpha G players i s k).1 })
        (game N M Ki b r alpha G players i s k).2.2
      refine ⟨?_, ?_, ?_⟩
      · rw [ih1, stratsOf_set_payoff, game_strats]
      · rw [ih2, memsOf_set_payoff, game_mems]
      · rw [ih3, List.length_set, game_length]

theorem initFold_eq (l : List Agent) (c d : ℤ) :
    l.foldl
      (fun (n : ℤ × ℤ) a =>
        match a.strategy with
        | .cooperate => (n.1 + 1, n.2)
        | .defect => (n.1, n.2 + 1)) (c, d) =
      (c + coopCount l, d + defectCount l) := by
  induction l generalizing c d with
  | nil => simp [coopCount, defectCount]
  | cons a t ih =>
      cases h : a.strategy <;>
        simp only [List.foldl_cons, h] <;>
        rw [ih] <;>
        simp [coopCount, defectCount, List.countP_cons, h, Prod.ext_iff] <;>
        ring

theorem initialState_countersOk (N : ℕ) (s : ℕ → ℚ) (k : ℕ) :
    countersOk N (initialState N s k).1 := by
  simp only [initialState, initFold_eq]
  exact ⟨by simp, by simp, by simp⟩

theorem roundUpdate_countersOk (N M Ki : ℕ) (b r alpha : ℚ) (G : SimGraph)
    (s : ℕ → ℚ) (st : SimState) (k : ℕ) (hok : countersOk N st) :
    countersOk N (roundUpdate N M Ki b r alpha G s st k).1 := by
  simp only [roundUpdate]
  apply updatePhase_countersOk
  · obtain ⟨hs, hm, hl⟩ := payoffPhase_preserves N M Ki b r alpha G s (List.range N)
      (beginPhase M st.players) k
    exact countersOk_congr_strats _ (by rw [hl, beginPhase_length])
      (by rw [hs, beginPhase_strats]) hok
  · exact fun i hi => List.mem_range.mp hi

theorem runRounds_countersOk (N M Ki : ℕ) (b r alpha : ℚ) (G : SimGraph)
    (s : ℕ → ℚ) :
    ∀ (n : ℕ) (st : SimState) (k : ℕ) (st2 : SimState) (c : ℕ),
      countersOk N st → runRounds N M Ki b r alpha G s n st k = .ok (st2, c) →
      countersOk N st2 := by
  intro n
  induction n with
  | zero =>
      intro st k st2 c hok h
      simp only [runRounds, Except.ok.injEq, Prod.mk.injEq] at h
      rw [← h.1]
      exact hok
  | succ n ih =>
      intro st k st2 c hok h
      simp only [runRounds] at h
      split at h
      · exact absurd h (by simp)
      · exact ih _ _ _ _
          (countersOk_congr_strats _ (cleanupPhase_length _) (cleanupPhase_strats _)
            (roundUpdate_countersOk N M Ki b r alpha G s st k hok)) h

/-- C3: after initialization and after every strategy mutation the global
counters satisfy `cooperatorCount + defectorCount = SIZE` with each counter
equal to the number of agents holding that strategy; the invariant is
established by `initial`, preserved by `change_strat` and by every phase of
every round, hence holds at every point of every round of the run. -/
theorem counters_invariant :
    (∀ (N : ℕ) (s : ℕ → ℚ) (k : ℕ), countersOk N (initialState N s k).1)
    ∧ (∀ (N : ℕ) (b : ℚ) (G : SimGraph) (st : SimState) (x y : ℕ) (u : ℚ),
        countersOk N st → x < st.players.length →
        countersOk N (change_strat b G st x y u))
    ∧ (∀ (N M : ℕ) (st : SimState), countersOk N st →
        countersOk N { st with players := beginPhase M st.players })
    ∧ (∀ (N M Ki : ℕ) (b r alpha : ℚ) (G : SimGraph) (s : ℕ → ℚ)
        (idx : List ℕ) (st : SimState) (k : ℕ), countersOk N st →
        countersOk N
          { st with players := (payoffPhase N M Ki b r alpha G s idx (st.players, k)).1 })
    ∧ (∀ (N M : ℕ) (b r : ℚ) (G : SimGraph) (s : ℕ → ℚ) (idx : List ℕ)
        (st : SimState) (k : ℕ), countersOk N st → (∀ i ∈ idx, i < N) →
        countersOk N (updatePhase M b r G s idx (st, k)).1)
    ∧ (∀ (N : ℕ) (st : SimState), countersOk N st →
        countersOk N { st with players := cleanupPhase st.players })
    ∧ (∀ (N M Ki : ℕ) (b r alpha : ℚ) (G : SimGraph) (s : ℕ → ℚ) (n : ℕ)
        (st : SimState) (k : ℕ) (st2 : SimState) (c : ℕ), countersOk N st →
        runRounds N M Ki b r alpha G s n st k = .ok (st2, c) → countersOk N st2)
    ∧ (∀ (N : ℕ) (st : SimState), countersOk N st →
        st.numC + st.numD = N ∧ st.numC = (coopCount st.players : ℤ)
          ∧ st.numD = (defectCount st.players : ℤ)) := by
  refine ⟨initialState_countersOk, ?_, ?_, ?_, ?_, ?_, ?_, ?_⟩
  · intro N b G st x y u hok hx
    rcases change_strat_cases b G st x y u with h | h <;> rw [h]
    · exact hok
    · exact applyStrategyChange_countersOk N st x _ hok hx
  · intro N M st hok
    exact countersOk_congr_strats _ (beginPhase_length M st.players)
      (beginPhase_strats M st.players) hok
  · intro N M Ki b r alpha G s idx st k hok
    obtain ⟨hs, hm, hl⟩ := payoffPhase_preserves N M Ki b r alpha G s idx st.players k
    exact countersOk_congr_strats _ hl hs hok
  · intro N M b r G s idx st k hok hidx
    exact updatePhase_countersOk N M b r G s idx st k hok hidx
  · intro N st hok
    exact countersOk_congr_strats _ (cleanupPhase_length _) (cleanupPhase_strats _) hok
  · intro N M Ki b r alpha G s n st k st2 c hok h
    exact runRounds_countersOk N M Ki b r alpha G s n st k st2 c hok h
  · intro N st hok
    obtain ⟨h1, h2, h3⟩ := hok
    refine ⟨?_, h2, h3⟩
    rw [h2, h3]
    have := coopCount_add_defectCount st.players
    omega

theorem counters_invariant_witness :
    countersOk 2
      (change_strat (6/5) ⟨fun i => if i = 0 then [1] else if i = 1 then [0] else []⟩
        ⟨[{ strategy := .cooperate, PreStrat := .cooperate, payoff := 0, memory := [],
            mi := 0, strangers := [] },
          { strategy := .defect, PreStrat := .defect, payoff := 2, memory := [],
            mi := 0, strangers := [] }], 1, 1⟩ 0 1 (0 : ℚ)) :=
  counters_invariant.2.1 2 (6/5) _ _ 0 1 0 ⟨rfl, by decide, by decide⟩ (by decide)

/-! ## C8: bounded memory and the cooperation count -/

theorem pushMem_length (M : ℕ) (mem : List Strategy) (s0 : Strategy) :
    (pushMem M mem s0).length = min (mem.length + 1) M := by
  simp only [pushMem, List.length_drop, List.length_append, List.length_cons,
    List.length_nil]
  omega

theorem memsOf_set_strategy (l : List Agent) (x : ℕ) (ns : Strategy) :
    memsOf (l.set x { l.getD x default with strategy := ns }) = memsOf l :=
  memsOf_set_same l x { l.getD x default with strategy := ns } rfl

theorem change_strat_mems (b : ℚ) (G : SimGraph) (st : SimState) (x y : ℕ)
    (u : ℚ) : memsOf (change_strat b G st x y u).players = memsOf st.players := by
  rcases change_strat_cases b G st x y u with h | h <;> rw [h]
  rw [applyStrategyChange_players]
  exact memsOf_set_strategy _ _ _

theorem change_strat_players_length (b : ℚ) (G : SimGraph) (st : SimState)
    (x y : ℕ) (u : ℚ) :
    (change_strat b G st x y u).players.length = st.players.length := by
  rcases change_strat_cases b G st x y u with h | h <;> rw [h]
  rw [applyStrategyChange_players]
  simp

theorem updateOne_mems (M : ℕ) (b r : ℚ) (G : SimGraph) (s : ℕ → ℚ)
    (st : SimState) (x k : ℕ) :
    memsOf (updateOne M b r G s st x k).1.players = memsOf st.players := by
  simp only [updateOne]
  split_ifs <;> first | rfl | exact change_strat_mems _ _ _ _ _ _

theorem updateOne_length (M : ℕ) (b r : ℚ) (G : SimGraph) (s : ℕ → ℚ)
    (st : SimState) (x k : ℕ) :
    (updateOne M b r G s st x k).1.players.length = st.players.length := by
  simp only [updateOne]
  split_ifs <;> first | rfl | exact change_strat_players_length _ _ _ _ _ _

theorem updatePhase_mems (M : ℕ) (b r : ℚ) (G : SimGraph) (s : ℕ → ℚ)
    (idx : List ℕ) (st : SimState) (k : ℕ) :
    memsOf (updatePhase M b r G s idx (st, k)).1.players = memsOf st.players
    ∧ (updatePhase M b r G s idx (st, k)).1.players.length = st.players.length := by
  induction idx generalizing st k with
  | nil => exact ⟨rfl, rfl⟩
  | cons i rest ih =>
      simp only [updatePhase]
      obtain ⟨h1, h2⟩ := ih (updateOne M b r G s st i k).1 (updateOne M b r G s st i k).2
      exact ⟨h1.trans (updateOne_mems M b r G s st i k),
        h2.trans (updateOne_length M b r G s st i k)⟩

theorem beginPhase_mem_lengths (M t : ℕ) (l : List Agent)
    (h : ∀ m ∈ memsOf l, m.length = min t M) :
    ∀ m ∈ memsOf (beginPhase M l), m.length = min (t + 1) M := by
  intro m hm
  simp only [memsOf, beginPhase, List.map_map, List.mem_map, Function.comp] at hm
  obtain ⟨a, ha, rfl⟩ := hm
  have hma := h a.memory (List.mem_map_of_mem _ ha)
  show (pushMem M a.memory a.strategy).length = min (t + 1) M
  rw [pushMem_length, hma]
  omega

theorem roundUpdate_mem_lengths (N M Ki : ℕ) (b r alpha : ℚ) (G : SimGraph)
    (s : ℕ → ℚ) (st : SimState) (k t : ℕ)
    (h : ∀ m ∈ memsOf st.players, m.length = min t M) :
    ∀ m ∈ memsOf (roundUpdate N M Ki b r alpha G s st k).1.players,
      m.length = min (t + 1) M := by
  simp only [roundUpdate]
  intro m hm
  rw [(updatePhase_mems M b r G s (List.range N) _ _).1] at hm
  rw [(payoffPhase_preserves N M Ki b r alpha G s (List.range N)
    (beginPhase M st.players) k).2.1] at hm
  exact beginPhase_mem_lengths M t st.players h m hm

theorem runRounds_memory (N M Ki : ℕ) (b r alpha : ℚ) (G : SimGraph)
    (s : ℕ → ℚ) :
    ∀ (n t : ℕ) (st : SimState) (k : ℕ) (st2 : SimState) (c : ℕ),
      (∀ m ∈ memsOf st.players, m.length = min t M) →
      runRounds N M Ki b r alpha G s n st k = .ok (st2, c) →
      ∀ m ∈ memsOf st2.players, m.length = min (t + n) M := by
  intro n
  induction n with
  | zero =>
      intro t st k st2 c hmem h
      simp only [runRounds, Except.ok.injEq, Prod.mk.injEq] at h
      rw [← h.1]
      simpa using hmem
  | succ n ih =>
      intro t st k st2 c hmem h
      simp only [runRounds] at h
      split at h
      · exact absurd h (by simp)
      · have hr := roundUpdate_mem_lengths N M Ki b r alpha G s st k t hmem
        have hcl : ∀ m ∈ memsOf (cleanupPhase (roundUpdate N M Ki b r alpha G s st k).1.players),
            m.length = min (t + 1) M := by
          rw [cleanupPhase_mems]
          exact hr
        have := ih (t + 1) _ _ _ _ hcl h
        have harith : t + 1 + n = t + (n + 1) := by omega
        rwa [harith] at this

theorem initialState_mems (N : ℕ) (s : ℕ → ℚ) (k : ℕ) :
    ∀ m ∈ memsOf (initialState N s k).1.players, m.length = min 0 M0 := by
  intro m hm
  simp only [initialState, memsOf, List.map_map, List.mem_map, Function.comp] at hm
  obtain ⟨i, hi, rfl⟩ := hm
  simp [initAgent]

/-- C8: every agent's memory length never exceeds `M`; an append to a full
memory keeps it at exactly `M`; after `n` rounds every agent's memory holds
exactly `min n M` entries — in particular exactly `M` entries once at least
`M` rounds have begun — and immediately after the round-beginning step the
cached `mi` equals the exact count of cooperate entries in the agent's
current memory. -/
theorem memory_invariant :
    (∀ (M : ℕ) (mem : List Strategy) (s0 : Strategy),
        (pushMem M mem s0).length ≤ M ∧
          (pushMem M mem s0).length = min (mem.length + 1) M)
    ∧ (∀ (M : ℕ) (a : Agent),
        (beginRoundAgent M a).mi = countCoop (beginRoundAgent M a).memory)
    ∧ (∀ (N M Ki : ℕ) (b r alpha : ℚ) (G : SimGraph) (s : ℕ → ℚ) (n : ℕ)
        (st2 : SimState) (c : ℕ),
        runRounds N M Ki b r alpha G s n (initialState N s 0).1
          (initialState N s 0).2 = .ok (st2, c) →
        ∀ a ∈ st2.players, a.memory.length = min n M ∧ a.memory.length ≤ M ∧
          (M ≤ n → a.memory.length = M)) := by
  refine ⟨?_, ?_, ?_⟩
  · intro M mem s0
    rw [pushMem_length]
    omega
  · intro M a
    rfl
  · intro N M Ki b r alpha G s n st2 c h a ha
    have := runRounds_memory N M Ki b r alpha G s n 0 _ _ _ _
      (initialState_mems N s 0) h a.memory (List.mem_map_of_mem _ ha)
    simp only [zero_add] at this
    exact ⟨this, by omega, fun hMn => by omega⟩

theorem memory_invariant_witness :
    (({ strategy := .cooperate, PreStrat := .cooperate, payoff := 1,
        memory := [Strategy.cooperate], mi := 1, strangers := [] } : Agent)).memory.length =
      min 2 1 :=
  (memory_invariant.2.2 2 1 1 (6/5) (1/2) (1/10)
    ⟨fun i => if i = 0 then [1] else if i = 1 then [0] else []⟩ (fun _ => 1/3) 2
    ⟨[⟨.cooperate, .cooperate, 1, [Strategy.cooperate], 1, []⟩,
      ⟨.cooperate, .cooperate, 1, [Strategy.cooperate], 1, []⟩], 2, 0⟩ 10
    (by with_unfolding_all rfl)
    ⟨.cooperate, .cooperate, 1, [Strategy.cooperate], 1, []⟩
    (List.mem_cons_self _ _)).1

/-! ## C9: the stranger phase is gated on a full memory -/

/-- C9: a call to `game` for an agent whose memory holds fewer than `M`
entries leaves the player list (hence the agent's stranger list) and the
stream cursor untouched and returns exactly the fixed-neighbor payoff, with
no stranger-phase contribution of either sign. -/
theorem game_gate_frame (N M Ki : ℕ) (b r alpha : ℚ) (G : SimGraph)
    (players : List Agent) (x : ℕ) (s : ℕ → ℚ) (k : ℕ)
    (h : (players.getD x default).memory.length < M) :
    game N M Ki b r alpha G players x s k =
      (fixedNeighborPayoff b G players x (players.getD x default).strategy,
       players, k) := by
  simp only [game]
  rw [if_neg (Nat.ne_of_lt h)]

theorem game_gate_frame_witness :
    game 1 5 3 (6/5) (1/2) (1/10) ⟨fun _ => [0]⟩
        [⟨.cooperate, .cooperate, 0, [Strategy.cooperate], 1, []⟩] 0 (fun _ => 1/3) 0 =
      (fixedNeighborPayoff (6/5) ⟨fun _ => [0]⟩
        [⟨.cooperate, .cooperate, 0, [Strategy.cooperate], 1, []⟩] 0
        (([⟨.cooperate, .cooperate, 0, [Strategy.cooperate], 1, []⟩] : List Agent).getD 0
          default).strategy,
       [⟨.cooperate, .cooperate, 0, [Strategy.cooperate], 1, []⟩], 0) :=
  game_gate_frame 1 5 3 (6/5) (1/2) (1/10) ⟨fun _ => [0]⟩
    [⟨.cooperate, .cooperate, 0, [Strategy.cooperate], 1, []⟩] 0 (fun _ => 1/3) 0
    (by decide)

/-! ## C4: determinism of a run given the random stream -/

/-- C4: two complete runs with the same configuration, graph and random
stream produce identical per-round output records: the whole run is a pure
function of the stream, the agents being processed in fixed index order
`0..N-1` in every phase. -/
theorem run_deterministic (N M Ki steps : ℕ) (b r alpha : ℚ) (G : SimGraph)
    (s1 s2 : ℕ → ℚ) (h : ∀ j, s1 j = s2 j) :
    runSim N M Ki steps b r alpha G s1 = runSim N M Ki steps b r alpha G s2 := by
  rw [funext h]

theorem run_deterministic_witness :
    runSim 2 1 1 2 (6/5) (1/2) (1/10) ⟨fun _ => []⟩ (fun _ => 1/3) =
      runSim 2 1 1 2 (6/5) (1/2) (1/10) ⟨fun _ => []⟩ (fun _ => 1/3) :=
  run_deterministic 2 1 1 2 (6/5) (1/2) (1/10) ⟨fun _ => []⟩ _ _ (fun _ => rfl)

/-! ## C5: there is no configuration validation -/

/-- C5 counterexample: at `SIZE = 3`, `R = 2` the derived edge probability
`p = 2·2/(3-1) = 2` lies outside `[0,1]` — an invalid configuration by the
claim — yet network construction raises no `ConfigurationError`: it
succeeds and silently returns the complete graph on three nodes (for
`p ≥ 1` every pair draw in `[0,1)` is below `p`, matching networkx, which
returns the complete graph whenever `p ≥ 1`). -/
theorem config_validation_counterexample :
    ((1 : ℚ) < (2 * (2 : ℕ) : ℚ) / (((3 : ℕ) : ℚ) - 1))
    ∧ (buildNetworkE 3 2 (fun _ _ => 1/2)).isOk = true
    ∧ (buildNetworkE 3 2 (fun _ _ => 1/2)).map (fun g => (g.adj 0, g.adj 1, g.adj 2)) =
        .ok ([1, 2], [0, 2], [0, 1]) := by
  refine ⟨by norm_num, ?_, ?_⟩
  · rfl
  · with_unfolding_all rfl

/-- C5 (amended): initialization performs no parameter validation at all.
Network construction succeeds for every `SIZE ≠ 1`; `SIZE = 1` aborts with
an uncaught `ZeroDivisionError` (computing `p`), not a `ConfigurationError`;
and an edge probability `p ≥ 1` (average degree exceeding `SIZE - 1`) is
silently clamped — every node is connected to all others — rather than
reported as a configuration error.  (`M ≤ 0`, `Ki < 0` and negative
`alpha`/`r`/`b` are likewise accepted without any check.) -/
theorem build_network_no_validation (n R : ℕ) (d : ℕ → ℕ → ℚ) :
    (n ≠ 1 → (buildNetworkE n R d).isOk = true)
    ∧ (buildNetworkE 1 R d = .error .zeroDivision)
    ∧ (∀ i, i < n → n ≠ 1 → 1 ≤ (2 * R : ℚ) / ((n : ℚ) - 1) →
        (∀ a c, d a c < 1) →
        (buildNetworkE n R d).map (fun g => g.adj i) =
          .ok ((List.range n).filter (fun j => decide (j ≠ i)))) := by
  refine ⟨?_, ?_, ?_⟩
  · intro h
    simp only [buildNetworkE, if_neg h]
    rfl
  · simp [buildNetworkE]
  · intro i hi hn hp hd
    simp only [buildNetworkE, if_neg hn, Except.map]
    rw [if_pos hi]
    congr 1
    apply List.filter_congr
    intro j hj
    have hlt : d (min i j) (max i j) < (2 * R : ℚ) / ((n : ℚ) - 1) :=
      lt_of_lt_of_le (hd _ _) hp
    simp [hlt]

theorem build_network_no_validation_witness :
    (buildNetworkE 3 2 (fun _ _ => 1/3)).map (fun g => g.adj 0) =
      .ok ((List.range 3).filter (fun j => decide (j ≠ 0))) :=
  (build_network_no_validation 3 2 (fun _ _ => 1/3)).2.2 0 (by norm_num)
    (by norm_num) (by norm_num) (fun a c => by norm_num)

/-! ## C6 and C7: the degree-variation coefficient -/

/-- Incoming stranger selections of node `i`: how often `i` occurs in the
other agents' stranger lists, as the specification words it. -/
def extraInSpec (players : List Agent) (i : ℕ) : ℕ :=
  (players.map (fun a => a.strangers.count i)).sum

/-- The effective degree of node `i`: fixed degree plus outgoing plus
incoming stranger selections. -/
def effectiveDegree (G : SimGraph) (players : List Agent) (i : ℕ) : ℚ :=
  (G.degree i : ℚ) + ((players.getD i default).strangers.length : ℚ) +
    (extraInSpec players i : ℚ)

def degreesSpec (N : ℕ) (G : SimGraph) (players : List Agent) : List ℚ :=
  (List.range N).map (effectiveDegree G players)

def muSpec (N : ℕ) (G : SimGraph) (players : List Agent) : ℚ :=
  (degreesSpec N G players).sum / N

def sqDiffSpec (N : ℕ) (G : SimGraph) (players : List Agent) : ℚ :=
  ((degreesSpec N G players).map (fun degv => (degv - muSpec N G players) ^ 2)).sum

/-- `computeCV` as the specification describes it: the population standard
deviation (sum of squared deviations divided by `N`, not `N - 1`) of the
effective degree over all `N` nodes, divided by its mean, and a computation
error when the mean is zero. -/
noncomputable def computeCVspec (N : ℕ) (G : SimGraph) (players : List Agent) :
    Except SimError ℝ :=
  if N = 0 ∨ muSpec N G players = 0 then .error .zeroDivision
  else .ok (Real.sqrt ((sqDiffSpec N G players : ℚ) / (N : ℚ)) /
    ((muSpec N G players : ℚ) : ℝ))

theorem bump_foldl_length (strs : List ℕ) (acc : List ℕ) :
    (strs.foldl (fun ac c => ac.set c (ac.getD c 0 + 1)) acc).length = acc.length := by
  induction strs generalizing acc with
  | nil => rfl
  | cons c t ih => rw [List.foldl_cons, ih]; simp

theorem bump_foldl_getD (strs : List ℕ) (acc : List ℕ) (i : ℕ) (hi : i < acc.length) :
    (strs.foldl (fun ac c => ac.set c (ac.getD c 0 + 1)) acc).getD i 0 =
      acc.getD i 0 + strs.count i := by
  induction strs generalizing acc with
  | nil => simp
  | cons c t ih =>
      rw [List.foldl_cons, ih _ (by simpa using hi), List.count_cons]
      by_cases hc : c = i
      · subst hc
        rw [getD_set_self _ _ hi]
        simp
        omega
      · rw [getD_set_ne _ _ hc]
        simp [hc]

theorem extraInFold_getD (players : List Agent) (acc : List ℕ) (i : ℕ)
    (hi : i < acc.length) :
    (players.foldl
      (fun acc2 a => a.strangers.foldl (fun ac c => ac.set c (ac.getD c 0 + 1)) acc2)
      acc).getD i 0 = acc.getD i 0 + extraInSpec players i := by
  induction players generalizing acc with
  | nil => simp [extraInSpec]
  | cons a t ih =>
      rw [List.foldl_cons, ih _ (by rw [bump_foldl_length]; exact hi),
        bump_foldl_getD _ _ _ hi]
      simp [extraInSpec]
      omega

theorem extraInArr_getD (N : ℕ) (players : List Agent) (i : ℕ) (hi : i < N) :
    (extraInArr N players).getD i 0 = extraInSpec players i := by
  unfold extraInArr
  rw [extraInFold_getD players (List.replicate N 0) i (by simpa using hi)]
  simp

theorem degreesArr_eq (N : ℕ) (G : SimGraph) (players : List Agent) :
    degreesArr N G players = degreesSpec N G players := by
  unfold degreesArr degreesSpec
  apply List.map_congr_left
  intro i hi
  rw [extraInArr_getD N players i (List.mem_range.mp hi)]
  rfl

/-- C6: `calcCV` returns `sigma / mu` where the effective degree of node `i`
is its fixed degree plus outgoing plus incoming stranger selections, `mu`
the mean and `sigma` the population standard deviation (division by `N`,
not `N - 1`) over all `N` nodes; in particular, for `N = 4`, a graph with
exactly one edge and no stranger activity it returns exactly `1`. -/
theorem calcCV_correct :
    (∀ (N : ℕ) (G : SimGraph) (players : List Agent),
        calcCVE N G players = computeCVspec N G players)
    ∧ calcCVE 4 ⟨fun i => if i = 0 then [1] else if i = 1 then [0] else []⟩
        (List.replicate 4 default) = .ok 1 := by
  have hgen : ∀ (N : ℕ) (G : SimGraph) (players : List Agent),
      calcCVE N G players = computeCVspec N G players := by
    intro N G players
    have hmu : cvMu N G players = muSpec N G players := by
      simp only [cvMu, muSpec, degreesArr_eq]
    have hsq : cvSqDiffSum N G players = sqDiffSpec N G players := by
      simp only [cvSqDiffSum, sqDiffSpec, degreesArr_eq, hmu]
    unfold calcCVE computeCVspec
    rw [hmu, hsq]
    by_cases hN : N = 0
    · simp [hN]
    · by_cases hm : muSpec N G players = 0 <;> simp [hN, hm]
  refine ⟨hgen, ?_⟩
  rw [hgen]
  have hmu4 : muSpec 4 ⟨fun i => if i = 0 then [1] else if i = 1 then [0] else []⟩
      (List.replicate 4 default) = 1/2 := by with_unfolding_all rfl
  have hsq4 : sqDiffSpec 4 ⟨fun i => if i = 0 then [1] else if i = 1 then [0] else []⟩
      (List.replicate 4 default) = 1 := by with_unfolding_all rfl
  unfold computeCVspec
  rw [hmu4, hsq4]
  have hcond : ¬((4 : ℕ) = 0 ∨ (1/2 : ℚ) = 0) := by norm_num
  rw [if_neg hcond]
  congr 1
  push_cast
  rw [show (1 / 4 : ℝ) = (1/2 : ℝ)^2 by norm_num,
    Real.sqrt_sq (by norm_num : (0:ℝ) ≤ 1/2)]
  norm_num

/-- C7: when the mean effective degree is exactly zero, `calcCV` aborts with
a division error rather than silently returning `0` or `NaN`; for every
state with positive mean it returns a defined real value. -/
theorem calcCV_error_handling (N : ℕ) (G : SimGraph) (players : List Agent) :
    (cvMu N G players = 0 → calcCVE N G players = .error .zeroDivision)
    ∧ (0 < cvMu N G players → ∃ v, calcCVE N G players = .ok v) := by
  constructor
  · intro h
    unfold calcCVE
    by_cases hN : N = 0 <;> simp [hN, h]
  · intro h
    have hN : N ≠ 0 := by
      intro h0
      subst h0
      rw [show cvMu 0 G players = 0 by simp [cvMu]] at h
      exact lt_irrefl 0 h
    unfold calcCVE
    rw [if_neg hN, if_neg (ne_of_gt h)]
    exact ⟨_, rfl⟩

theorem calcCV_error_handling_witness :
    calcCVE 2 ⟨fun _ => []⟩ [default, default] = .error .zeroDivision :=
  (calcCV_error_handling 2 ⟨fun _ => []⟩ [default, default]).1
    (by with_unfolding_all rfl)

end NetworkER
